import Mathlib

/-!
Verification of the changelog-to-notification core of this repository
(`src/main.js`).  The JavaScript functions `parseMarkdown`, `versionToBlocks`
and `addHeader` are shallowly embedded as executable Lean functions over
`List Char`; the regular-expression operations the source relies on
(`String.prototype.match` with the specific patterns it uses,
`String.prototype.replaceAll`, `String.prototype.split`) are modelled by
dedicated functions that reproduce the lazy, leftmost, non-overlapping
semantics of the JavaScript engine for exactly those patterns.  Runtime
`TypeError`s that the source can raise (property access on `null` regex
results or on `undefined` variables) are modelled by `Except` errors.
-/

namespace SlackNotify

/-- JavaScript strings are modelled as lists of characters. -/
abbrev Str := List Char

/-- A regex-dot in JavaScript matches anything except a line terminator. -/
def isTermChar (c : Char) : Bool := c == '\n' || c == '\r'

/-- `String.prototype.split` with a single-character separator,
as used by `markdown.split('\n')`. -/
def splitChar (sep : Char) : Str → List Str
  | [] => [[]]
  | c :: cs =>
      if c = sep then [] :: splitChar sep cs
      else
        match splitChar sep cs with
        | p :: ps => (c :: p) :: ps
        | [] => [[c]]

/-- Fuel-driven core of `String.prototype.replaceAll` (non-overlapping,
leftmost-first).  Fuel at least the string length makes it total. -/
def replaceAllF (pat rep : Str) : Nat → Str → Str
  | _, [] => []
  | 0, s => s
  | fuel + 1, c :: cs =>
      if pat.isPrefixOf (c :: cs) then rep ++ replaceAllF pat rep fuel ((c :: cs).drop pat.length)
      else c :: replaceAllF pat rep fuel cs

/-- `String.prototype.replaceAll` for a non-empty pattern (an empty pattern
never occurs in the source). -/
def replaceAll (pat rep s : Str) : Str :=
  if pat.isEmpty then s else replaceAllF pat rep s.length s

/-- `String.prototype.replace` (first occurrence only), used for
`line.replace('### ', '')`. -/
def replaceFirst (pat rep : Str) : Str → Str
  | [] => []
  | c :: cs =>
      if pat.isPrefixOf (c :: cs) then rep ++ (c :: cs).drop pat.length
      else c :: replaceFirst pat rep cs

/-- Fuel-driven core of `String.prototype.split` with a non-empty string
separator, as used by `itemCpy.split(link)`. -/
def jsSplitF (pat : Str) : Nat → Str → Str → List Str
  | _, acc, [] => [acc.reverse]
  | 0, acc, s => [acc.reverse ++ s]
  | fuel + 1, acc, c :: cs =>
      if pat.isPrefixOf (c :: cs) then
        acc.reverse :: jsSplitF pat fuel [] ((c :: cs).drop pat.length)
      else jsSplitF pat fuel (c :: acc) cs

/-- `String.prototype.split` on a non-empty string separator. -/
def jsSplit (pat s : Str) : List Str :=
  if pat.isEmpty then [s] else jsSplitF pat s.length [] s

/-- Number of (possibly overlapping) occurrences of `pat` as a substring. -/
def countOccs (pat : Str) : Str → Nat
  | [] => 0
  | c :: cs => (if pat.isPrefixOf (c :: cs) then 1 else 0) + countOccs pat cs

/-- The lazy group-and-close step `(.*?)x` of the source's regexes: consume
characters (each must be dot-matchable, i.e. no line terminator) up to the
first occurrence of `stop`, returning the captured text and the remainder. -/
def lazyCapture (stop : Char) : Str → Option (Str × Str)
  | [] => none
  | c :: cs =>
      if c = stop then some ([], cs)
      else if isTermChar c then none
      else
        match lazyCapture stop cs with
        | some (cap, rest) => some (c :: cap, rest)
        | none => none

/-- Leftmost match of a regex of the shape `lit(.*?)stop` (e.g.
`/# \[(.*?)\]/`, `/\((.*?)\)/`, `/# (.*?) /`): scan for an occurrence of the
literal `lit` from which a lazy capture up to `stop` succeeds, and return the
first capture group. -/
def findLitLazy (lit : Str) (stop : Char) : Str → Option Str
  | [] => none
  | c :: cs =>
      if lit.isPrefixOf (c :: cs) then
        match lazyCapture stop ((c :: cs).drop lit.length) with
        | some (cap, _) => some cap
        | none => findLitLazy lit stop cs
      else findLitLazy lit stop cs

/-- Attempt of `/\d{4}-\d{2}-\d{2}/` anchored at the head of the string. -/
def dateAt : Str → Option Str
  | a :: b :: c :: d :: '-' :: e :: f :: '-' :: g :: h :: _ =>
      if a.isDigit && b.isDigit && c.isDigit && d.isDigit
          && e.isDigit && f.isDigit && g.isDigit && h.isDigit then
        some [a, b, c, d, '-', e, f, '-', g, h]
      else none
  | _ => none

/-- Leftmost match of `/\d{4}-\d{2}-\d{2}/` anywhere in the string. -/
def dateMatch : Str → Option Str
  | [] => none
  | c :: cs =>
      match dateAt (c :: cs) with
      | some d => some d
      | none => dateMatch cs

/-- Matcher for `\d+` followed by a continuation (with full backtracking over
the number of digits consumed). -/
def matchDigitsThen (cont : Str → Bool) : Str → Bool
  | [] => false
  | c :: cs => c.isDigit && (cont cs || matchDigitsThen cont cs)

/-- Matcher for a single regex-dot wildcard followed by a continuation. -/
def matchWildThen (cont : Str → Bool) : Str → Bool
  | [] => false
  | c :: cs => !isTermChar c && cont cs

/-- The test `line.match(/^# \d+.\d+.\d+/)` of the source: a bare numeric
header line, where the two middle characters are regex-dot wildcards. -/
def bareNumeric : Str → Bool
  | c1 :: c2 :: rest =>
      c1 == '#' && c2 == ' '
        && matchDigitsThen (matchWildThen (matchDigitsThen (matchWildThen
             (matchDigitsThen (fun _ => true))))) rest
  | _ => false

/-- Backtracking text-group search of `/\[(.*?)\]\((.*?)\)/` after the
opening `[`: lazily extend the text group until a `](` followed by a
successful lazy url capture up to `)` is found.  Returns the text group, the
url group and the remainder after the match. -/
def linkTextLoop (acc : Str) : Str → Option (Str × Str × Str)
  | [] => none
  | c :: cs =>
      if isTermChar c then none
      else if c = ']' then
        if cs.head? = some '(' then
          match lazyCapture ')' cs.tail with
          | some (url, rest) => some (acc.reverse, url, rest)
          | none => linkTextLoop (c :: acc) cs
        else linkTextLoop (c :: acc) cs
      else linkTextLoop (c :: acc) cs

/-- Match of `/\[(.*?)\]\((.*?)\)/` anchored at the head of the string.
Returns the full matched substring, the two groups, and the remainder. -/
def linkAt : Str → Option (Str × Str × Str × Str)
  | [] => none
  | c :: cs =>
      if c = '[' then
        match linkTextLoop [] cs with
        | some (txt, url, rest) =>
            some ('[' :: (txt ++ ']' :: '(' :: (url ++ [')'])), txt, url, rest)
        | none => none
      else none

/-- Fuel-driven global scan of `/\[(.*?)\]\((.*?)\)/g` (the `match(...g)`
call of the source): leftmost, non-overlapping matches, returned as the list
of full matched substrings. -/
def scanLinksF : Nat → Str → List Str
  | _, [] => []
  | 0, _ => []
  | fuel + 1, c :: cs =>
      match linkAt (c :: cs) with
      | some (full, _, _, rest) => full :: scanLinksF fuel rest
      | none => scanLinksF fuel cs

/-- `item.match(/\[(.*?)\]\((.*?)\)/g)`, with `null` represented by `[]`
(the source immediately replaces `null` by `[]` via `links ?? []`). -/
def scanLinks (s : Str) : List Str := scanLinksF s.length s


/-- Runtime errors of the JavaScript source: a `TypeError` raised by a
property access on `null` or `undefined`. -/
inductive JsErr
  | typeError (msg : String)
deriving DecidableEq

/-- Header data of one version: `version`, `date` and the optional `url`
(`none` models the absent `url` key of a bare numeric header element). -/
structure HeaderRec where
  version : Str
  date : Str
  url : Option Str
deriving DecidableEq

/-- One inline run of a list item, as pushed on `sections` in the source:
either a text run (whose text is `undefined`, modelled `none`, when the
split produced no remainder) or a link run with its raw matched markup,
url and display text. -/
inductive Run
  | textR (t : Option Str)
  | linkR (raw : Str) (url : Str) (txt : Str)
deriving DecidableEq

/-- One list item: the ordered runs stored under the `sections` key of the
item object (its `item` key is always `undefined` in the source and carries
no information). -/
structure ItemRec where
  sections : List Run
deriving DecidableEq

/-- One `### ` section with its items. -/
structure SectionRec where
  title : Str
  items : List ItemRec
deriving DecidableEq

/-- One version record produced by `parseMarkdown`. -/
structure VersionRec where
  header : HeaderRec
  sections : List SectionRec
deriving DecidableEq

/-- Classified line of the first pass of `parseMarkdown`. -/
inductive Element
  | headerE (h : HeaderRec)
  | secE (title : Str)
  | itemE (runs : List Run)
deriving DecidableEq

/-- Property access on a possibly-`null`/`undefined` match result:
`null` (`none`) raises a `TypeError` with the given message. -/
def expectSome : Option α → String → Except JsErr α
  | some a, _ => .ok a
  | none, msg => .error (.typeError msg)

/-- The literal `# [` (line prefix and regex literal `/# \[/`). -/
def litB1 : Str := ['#', ' ', '[']

/-- The literal `## [` line prefix. -/
def litB2 : Str := ['#', '#', ' ', '[']

/-- The literal `### ` line prefix. -/
def litSec : Str := ['#', '#', '#', ' ']

/-- The literal `* ` list-item prefix. -/
def litStar : Str := ['*', ' ']

/-- The literal `# ` of the bare-header version regex `/# (.*?) /`. -/
def litHS : Str := ['#', ' ']

/-- The bracketed-header test `line.startsWith('# [') || line.startsWith('## [')`. -/
def isBracketLine (l : Str) : Bool := litB1.isPrefixOf l || litB2.isPrefixOf l

/-- Item-line normalization of the source: remove every `**`, remove every
`* `, then HTML-escape `&`, `<`, `>` (in that order). -/
def normalizeItem (line : Str) : Str :=
  replaceAll ['>'] "&gt;".data
    (replaceAll ['<'] "&lt;".data
      (replaceAll ['&'] "&amp;".data
        (replaceAll litStar []
          (replaceAll ['*', '*'] [] line))))

/-- The per-link loop of the source over the global link matches: re-extract
url (`link.match(/\((.*?)\)/)[1]`) and display text
(`link.match(/\[(.*?)\]/)[1]`), then split the remaining text on the full
matched link, keeping only the first two parts (`const [before, after]`).
`itemCpy` is `Option`al because the second split part is `undefined` when
the link occurred fewer than once in the remainder; splitting `undefined`
raises a `TypeError`. -/
def itemLoopGo : List Str → Option Str → List Run → Except JsErr (List Run)
  | [], itemCpy, acc => .ok (acc ++ [Run.textR itemCpy])
  | lk :: rest, itemCpy, acc => do
      let url ← expectSome (findLitLazy ['('] ')' lk) "Cannot read properties of null (reading 1)"
      let txt ← expectSome (findLitLazy ['['] ']' lk) "Cannot read properties of null (reading 1)"
      match itemCpy with
      | none => .error (.typeError "Cannot read properties of undefined (reading split)")
      | some ic =>
          let parts := jsSplit lk ic
          itemLoopGo rest parts[1]? (acc ++ [Run.textR (some (parts.headD [])), Run.linkR lk url txt])

/-- Run extraction for a normalized item line: global link scan followed by
the split-and-push loop. -/
def itemRuns (item : Str) : Except JsErr (List Run) :=
  itemLoopGo (scanLinks item) (some item) []

/-- Bracketed-header extraction (source lines 66-69): version from
`/# \[(.*?)\]/`, date from `/\d{4}-\d{2}-\d{2}/`, url from `/\((.*?)\)/`;
each `null` match aborts with a `TypeError`. -/
def bracketHeaderOf (line : Str) : Except JsErr Element := do
  let version ← expectSome (findLitLazy litB1 ']' line) "Cannot read properties of null (reading 1)"
  let date ← expectSome (dateMatch line) "Cannot read properties of null (reading 0)"
  let url ← expectSome (findLitLazy ['('] ')' line) "Cannot read properties of null (reading 1)"
  pure (.headerE ⟨version, date, some url⟩)

/-- Bare-numeric-header extraction (source lines 72-74): version from
`/# (.*?) /`, date from `/\d{4}-\d{2}-\d{2}/`; no url key. -/
def bareHeaderOf (line : Str) : Except JsErr Element := do
  let version ← expectSome (findLitLazy litHS ' ' line) "Cannot read properties of null (reading 1)"
  let date ← expectSome (dateMatch line) "Cannot read properties of null (reading 0)"
  pure (.headerE ⟨version, date, none⟩)

/-- Item-line element (source lines 80-102). -/
def itemElemOf (line : Str) : Except JsErr Element := do
  let runs ← itemRuns (normalizeItem line)
  pure (.itemE runs)

/-- First-pass classification of one line: the four independent `if`s of the
source loop, concatenating whatever elements they push. -/
def classifyLine (line : Str) : Except JsErr (List Element) := do
  let h1 ← if isBracketLine line then (bracketHeaderOf line).map (fun e => [e]) else pure []
  let h2 ← if bareNumeric line then (bareHeaderOf line).map (fun e => [e]) else pure []
  let h3 := if litSec.isPrefixOf line then [Element.secE (replaceFirst litSec [] line)] else []
  let h4 ← if litStar.isPrefixOf line then (itemElemOf line).map (fun e => [e]) else pure []
  pure (h1 ++ h2 ++ h3 ++ h4)

/-- First pass of `parseMarkdown` over all lines. -/
def pass1 : List Str → Except JsErr (List Element)
  | [] => .ok []
  | l :: ls => do
      let e ← classifyLine l
      let es ← pass1 ls
      pure (e ++ es)

/-- Mutable state of the second pass: the version object currently being
filled, whether it was started by a real header (the initial dummy object is
never pushed to the output), and the versions already finished.  Since the
source pushes `currentVersion` by reference and keeps mutating it, a version
is appended to `acc` here only once the next header (or the end of input)
freezes it. -/
structure PSt where
  cv : VersionRec
  started : Bool
  acc : List VersionRec
deriving DecidableEq

/-- `currentVersion.sections[currentVersion.sections.length - 1].items.push(...)`:
`none` when the section list is empty (access on `undefined`). -/
def pushItemToLast : List SectionRec → ItemRec → Option (List SectionRec)
  | [], _ => none
  | [s], it => some [⟨s.title, s.items ++ [it]⟩]
  | s :: ss, it =>
      match pushItemToLast ss it with
      | some ss2 => some (s :: ss2)
      | none => none

/-- One step of the second pass of `parseMarkdown` (source lines 113-137). -/
def pass2Step (st : PSt) : Element → Except JsErr PSt
  | .headerE h =>
      .ok ⟨⟨h, []⟩, true, if st.started then st.acc ++ [st.cv] else st.acc⟩
  | .secE t =>
      .ok ⟨⟨st.cv.header, st.cv.sections ++ [⟨t, []⟩]⟩, st.started, st.acc⟩
  | .itemE runs =>
      match pushItemToLast st.cv.sections ⟨runs⟩ with
      | some ss => .ok ⟨⟨st.cv.header, ss⟩, st.started, st.acc⟩
      | none => .error (.typeError "Cannot read properties of undefined (reading items)")

/-- Folding the second pass over the element list. -/
def pass2Fold : List Element → PSt → Except JsErr PSt
  | [], st => .ok st
  | e :: es, st =>
      match pass2Step st e with
      | .ok st2 => pass2Fold es st2
      | .error er => .error er

/-- Output of the second pass: the finished versions, plus the version still
being filled if it was started by a real header. -/
def flushOut (st : PSt) : List VersionRec :=
  if st.started then st.acc ++ [st.cv] else st.acc

/-- The initial dummy `currentVersion` (empty strings, including `url: ''`). -/
def initSt : PSt := ⟨⟨⟨[], [], some []⟩, []⟩, false, []⟩

/-- Second pass of `parseMarkdown`. -/
def pass2 (es : List Element) : Except JsErr (List VersionRec) :=
  (pass2Fold es initSt).map flushOut

/-- `parseMarkdown` over an already-split list of lines. -/
def parseLines (ls : List Str) : Except JsErr (List VersionRec) := do
  let es ← pass1 ls
  pass2 es

/-- `parseMarkdown(markdown)` of the source. -/
def parseMarkdown (markdown : String) : Except JsErr (List VersionRec) :=
  parseLines (splitChar '\n' markdown.data)

/-- Inline element of a Slack `rich_text_section`: a text element (bold for
section titles, unstyled for item runs; `none` text models `undefined`) or a
link element. -/
inductive RTE
  | rtext (t : Option Str) (bold : Bool)
  | rlink (url : Str) (txt : Str)
deriving DecidableEq

/-- Element of a `rich_text` block: the title `rich_text_section` or the
bullet-style `rich_text_list` whose entries are the per-item element lists. -/
inductive RTPart
  | rtSection (elems : List RTE)
  | rtList (elems : List (List RTE))
deriving DecidableEq

/-- Slack message block: `header` (plain text), `section` (mrkdwn text) or
`rich_text`. -/
inductive Block
  | headerB (text : Str)
  | sectionB (text : Str)
  | richTextB (parts : List RTPart)
deriving DecidableEq

/-- Mapping of one item run to its rich-text element (source lines 189-203). -/
def runToRTE : Run → RTE
  | .textR t => .rtext t false
  | .linkR _ url txt => .rlink url txt

/-- The `rich_text` block emitted for one section (source lines 167-209). -/
def renderSection (s : SectionRec) : Block :=
  .richTextB
    [ .rtSection [.rtext (some (s.title ++ ['\n'])) true],
      .rtList (s.items.map (fun it => it.sections.map runToRTE)) ]

/-- JavaScript truthiness of the `url` field (`undefined` and `''` are falsy). -/
def truthy : Option Str → Bool
  | none => false
  | some [] => false
  | some (_ :: _) => true

/-- `versionToBlocks(version)` of the source: the leading `section` block
(linked if `version.header.url` is truthy) followed by one `rich_text` block
per section, in order. -/
def versionToBlocks (v : VersionRec) : List Block :=
  (if truthy v.header.url then
     Block.sectionB ('<' :: (v.header.url.getD [] ++ '|' :: (v.header.version
        ++ '>' :: ' ' :: '(' :: (v.header.date ++ [')']))))
   else
     Block.sectionB (v.header.version ++ ' ' :: '(' :: (v.header.date ++ [')'])))
  :: v.sections.map renderSection

/-- The call `versionToBlocks(versions[0])` of `run`: when the document had
no recognized header, `versions[0]` is `undefined` and the access
`version.header` inside the renderer raises a `TypeError`. -/
def versionToBlocksJS : Option VersionRec → Except JsErr (List Block)
  | none => .error (.typeError "Cannot read properties of undefined (reading header)")
  | some v => .ok (versionToBlocks v)

/-- `addHeader(blocks, serviceName)`: prepend one `header` block with plain
text `Release Note - serviceName` (the source's `unshift`). -/
def addHeader (blocks : List Block) (serviceName : Str) : List Block :=
  Block.headerB ("Release Note - ".data ++ serviceName) :: blocks

/-- The parse-and-render core of `run` (source lines 13-16): parse, select
`versions[0]`, render, prepend the title block. -/
def runCore (markdown serviceName : String) : Except JsErr (List Block) := do
  let versions ← parseMarkdown markdown
  let blocks ← versionToBlocksJS versions[0]?
  pure (addHeader blocks serviceName.data)

/-- Whether a line is recognized as a header line (either of the two header
`if`s of the first pass fires). -/
def isHeaderLine (l : Str) : Bool := isBracketLine l || bareNumeric l

/-- Header data a line contributes, written directly from the line
classification rules: bracketed headers carry a url, bare numeric headers do
not, other lines contribute nothing.  Used to state that `parseMarkdown`
returns one record per header line in document order. -/
def headerOfLine (l : Str) : Option HeaderRec :=
  if isBracketLine l then
    match findLitLazy litB1 ']' l, dateMatch l, findLitLazy ['('] ')' l with
    | some v, some d, some u => some ⟨v, d, some u⟩
    | _, _, _ => none
  else if bareNumeric l then
    match findLitLazy litHS ' ' l, dateMatch l with
    | some v, some d => some ⟨v, d, none⟩
    | _, _ => none
  else none

/-- The characters a run accounts for in the normalized line: its text for a
text run (`none` when the text is `undefined`), its raw matched markup for a
link run. -/
def runRaw : Run → Option Str
  | .textR t => t
  | .linkR raw _ _ => some raw

/-- Concatenation of the characters accounted for by the runs, `none` as
soon as some run text is `undefined`. -/
def concatRaw : List Run → Option Str
  | [] => some []
  | r :: rs => do
      let a ← runRaw r
      let b ← concatRaw rs
      pure (a ++ b)

/-- Whether an `Except` result is an error (a thrown `TypeError`). -/
def isErr : Except JsErr α → Bool
  | .error _ => true
  | .ok _ => false

/-- The header elements among a classified element list, in order. -/
def headersOf (es : List Element) : List HeaderRec :=
  es.filterMap (fun e => match e with | .headerE h => some h | _ => none)

/-- Whether an element is a section element. -/
def isSecE : Element → Bool
  | .secE _ => true
  | _ => false

/-- A string decomposes as interleaved gap text and the given list of
matched substrings, in order (the decomposition produced by a global regex
scan). -/
inductive Decomp : List Str → Str → Prop
  | nil (s : Str) : Decomp [] s
  | skip (c : Char) (ls : List Str) (s : Str) : Decomp ls s → Decomp ls (c :: s)
  | cons (lk : Str) (ls : List Str) (s : Str) : Decomp ls s → Decomp (lk :: ls) (lk ++ s)

/-- No line-terminator character occurs in the string. -/
def noTerm (s : Str) : Prop := ∀ c ∈ s, isTermChar c = false

/-- Shape of a full match of `/\[(.*?)\]\((.*?)\)/`: bracketed text group,
then a parenthesized url group, with no line terminators inside. -/
def IsLinkStr (lk : Str) : Prop :=
  ∃ t u, lk = '[' :: (t ++ ']' :: '(' :: (u ++ [')'])) ∧ noTerm t ∧ noTerm u


lemma isPrefixOf_iff_append {p l : Str} : p.isPrefixOf l = true ↔ ∃ r, l = p ++ r := by
  rw [ List.isPrefixOf_iff_prefix]
  constructor
  · rintro ⟨r, hr⟩; exact ⟨r, hr.symm⟩
  · rintro ⟨r, hr⟩; exact ⟨r, hr.symm⟩

lemma isPrefixOf_self_append (p r : Str) : p.isPrefixOf (p ++ r) = true :=
  isPrefixOf_iff_append.mpr ⟨r, rfl⟩

lemma length_filterMap_eq_countP (f : α → Option β) :
    ∀ ls : List α, (ls.filterMap f).length = ls.countP (fun a => (f a).isSome)
  | [] => rfl
  | a :: ls => by
      rw [List.filterMap_cons, List.countP_cons]
      cases h : f a <;>
        simp [h, length_filterMap_eq_countP f ls]

lemma isBracketLine_shape {l : Str} (h : isBracketLine l = true) :
    (∃ r, l = '#' :: ' ' :: '[' :: r) ∨ (∃ r, l = '#' :: '#' :: ' ' :: '[' :: r) := by
  rcases Bool.or_eq_true_iff.mp h with h1 | h2
  · rcases isPrefixOf_iff_append.mp h1 with ⟨r, hr⟩
    exact Or.inl ⟨r, by simpa [litB1] using hr⟩
  · rcases isPrefixOf_iff_append.mp h2 with ⟨r, hr⟩
    exact Or.inr ⟨r, by simpa [litB2] using hr⟩

lemma bareNumeric_shape {l : Str} (h : bareNumeric l = true) :
    ∃ d r, l = '#' :: ' ' :: d :: r ∧ d.isDigit = true := by
  match l with
  | [] => exact absurd h (by simp [bareNumeric])
  | [c] => exact absurd h (by simp [bareNumeric])
  | c1 :: c2 :: rest =>
      simp only [bareNumeric, Bool.and_eq_true, beq_iff_eq] at h
      obtain ⟨⟨e1, e2⟩, hm⟩ := h
      subst e1; subst e2
      match rest with
      | [] => exact absurd hm (by simp [matchDigitsThen])
      | d :: r =>
          refine ⟨d, r, rfl, ?_⟩
          by_contra hd
          have hd2 : d.isDigit = false := by
            cases hdig : d.isDigit
            · rfl
            · exact absurd hdig hd
          simp [matchDigitsThen, hd2] at hm

lemma digit_ne_bracket {d : Char} (h : d.isDigit = true) : ('[' == d) = false := by
  cases hb : ('[' == d)
  · rfl
  · have : '[' = d := eq_of_beq hb
    rw [← this] at h
    exact absurd h (by decide)

lemma isBracketLine_of_bare {l : Str} (h : bareNumeric l = true) : isBracketLine l = false := by
  rcases bareNumeric_shape h with ⟨d, r, hl, hd⟩
  subst hl
  simp [isBracketLine, litB1, litB2, List.isPrefixOf, digit_ne_bracket hd]

lemma classify_of_bracket {l : Str} (h : isBracketLine l = true) :
    classifyLine l = (bracketHeaderOf l).map (fun e => [e]) := by
  have hno : bareNumeric l = false ∧ litSec.isPrefixOf l = false
      ∧ litStar.isPrefixOf l = false := by
    rcases isBracketLine_shape h with ⟨r, hr⟩ | ⟨r, hr⟩ <;> subst hr <;>
      exact ⟨rfl, rfl, rfl⟩
  rw [classifyLine, h, hno.1, hno.2.1, hno.2.2]
  cases hb : bracketHeaderOf l <;>
    simp [Except.map, Except.bind, bind, pure, Except.pure]

lemma classify_of_bare {l : Str} (h : bareNumeric l = true) :
    classifyLine l = (bareHeaderOf l).map (fun e => [e]) := by
  rcases bareNumeric_shape h with ⟨d, r, hl, hd⟩
  have hbr : isBracketLine l = false := isBracketLine_of_bare h
  have hsec : litSec.isPrefixOf l = false := by subst hl; rfl
  have hstar : litStar.isPrefixOf l = false := by subst hl; rfl
  rw [classifyLine, hbr, h, hsec, hstar]
  cases hb : bareHeaderOf l <;>
    simp [Except.map, Except.bind, bind, pure, Except.pure]

lemma classify_of_sec {l : Str} (h : litSec.isPrefixOf l = true) :
    classifyLine l = .ok [Element.secE (replaceFirst litSec [] l)] := by
  rcases isPrefixOf_iff_append.mp h with ⟨r, hr⟩
  have hr2 : l = '#' :: '#' :: '#' :: ' ' :: r := by simpa [litSec] using hr
  subst hr2
  have c1 : isBracketLine ('#' :: '#' :: '#' :: ' ' :: r) = false := by
    simp [isBracketLine, litB1, litB2, List.isPrefixOf]
  have c2 : bareNumeric ('#' :: '#' :: '#' :: ' ' :: r) = false := by
    simp [bareNumeric]
  have c4 : litStar.isPrefixOf ('#' :: '#' :: '#' :: ' ' :: r) = false := by
    simp [litStar, List.isPrefixOf]
  rw [classifyLine, c1, c2, h, c4]
  rfl

lemma classify_of_star {l : Str} (h : litStar.isPrefixOf l = true) :
    classifyLine l = (itemElemOf l).map (fun e => [e]) := by
  rcases isPrefixOf_iff_append.mp h with ⟨r, hr⟩
  have hr2 : l = '*' :: ' ' :: r := by simpa [litStar] using hr
  subst hr2
  have c1 : isBracketLine ('*' :: ' ' :: r) = false := by
    simp [isBracketLine, litB1, litB2, List.isPrefixOf]
  have c2 : bareNumeric ('*' :: ' ' :: r) = false := by
    simp [bareNumeric]
  have c3 : litSec.isPrefixOf ('*' :: ' ' :: r) = false := by
    simp [litSec, List.isPrefixOf]
  rw [classifyLine, c1, c2, c3, h]
  cases hb : itemElemOf ('*' :: ' ' :: r) <;>
    simp [hb, Except.map, Except.bind, bind, pure, Except.pure]

lemma classify_of_other {l : Str} (h1 : isBracketLine l = false) (h2 : bareNumeric l = false)
    (h3 : litSec.isPrefixOf l = false) (h4 : litStar.isPrefixOf l = false) :
    classifyLine l = .ok [] := by
  rw [classifyLine, h1, h2, h3, h4]
  rfl

lemma bracketHeaderOf_ok {l : Str} {e : Element} (h : bracketHeaderOf l = .ok e) :
    ∃ v d u, findLitLazy litB1 ']' l = some v ∧ dateMatch l = some d
      ∧ findLitLazy ['('] ')' l = some u ∧ e = .headerE ⟨v, d, some u⟩ := by
  unfold bracketHeaderOf at h
  cases h1 : findLitLazy litB1 ']' l <;> rw [h1] at h
  · simp [expectSome, Except.bind, bind] at h
  · cases h2 : dateMatch l <;> rw [h2] at h
    · simp [expectSome, Except.bind, bind] at h
    · cases h3 : findLitLazy ['('] ')' l <;> rw [h3] at h
      · simp [expectSome, Except.bind, bind] at h
      · simp [expectSome, Except.bind, bind, pure, Except.pure] at h
        exact ⟨_, _, _, rfl, rfl, rfl, h.symm⟩

lemma bareHeaderOf_ok {l : Str} {e : Element} (h : bareHeaderOf l = .ok e) :
    ∃ v d, findLitLazy litHS ' ' l = some v ∧ dateMatch l = some d
      ∧ e = .headerE ⟨v, d, none⟩ := by
  unfold bareHeaderOf at h
  cases h1 : findLitLazy litHS ' ' l <;> rw [h1] at h
  · simp [expectSome, Except.bind, bind] at h
  · cases h2 : dateMatch l <;> rw [h2] at h
    · simp [expectSome, Except.bind, bind] at h
    · simp [expectSome, Except.bind, bind, pure, Except.pure] at h
      exact ⟨_, _, rfl, rfl, h.symm⟩

lemma itemElemOf_ok {l : Str} {e : Element} (h : itemElemOf l = .ok e) :
    ∃ runs, itemRuns (normalizeItem l) = .ok runs ∧ e = .itemE runs := by
  unfold itemElemOf at h
  cases h1 : itemRuns (normalizeItem l) <;> rw [h1] at h
  · simp [Except.bind, bind] at h
  · simp [Except.bind, bind, pure, Except.pure] at h
    exact ⟨_, rfl, h.symm⟩

lemma bracketHeaderOf_err {l : Str}
    (h : dateMatch l = none ∨ findLitLazy ['('] ')' l = none) :
    isErr (bracketHeaderOf l) = true := by
  unfold bracketHeaderOf
  cases h1 : findLitLazy litB1 ']' l
  · simp [expectSome, Except.bind, bind, isErr]
  · cases h2 : dateMatch l
    · simp [expectSome, Except.bind, bind, isErr]
    · rcases h with hd | hu
      · rw [h2] at hd; cases hd
      · rw [hu]
        simp [expectSome, Except.bind, bind, isErr]

lemma bareHeaderOf_err {l : Str} (h : findLitLazy litHS ' ' l = none) :
    isErr (bareHeaderOf l) = true := by
  unfold bareHeaderOf
  rw [h]
  simp [expectSome, Except.bind, bind, isErr]

lemma classify_err_of_bracket_err {l : Str} (hb : isBracketLine l = true)
    (h : isErr (bracketHeaderOf l) = true) : isErr (classifyLine l) = true := by
  rw [classify_of_bracket hb]
  cases hbh : bracketHeaderOf l
  · simp [Except.map, isErr]
  · rw [hbh] at h; simp [isErr] at h

lemma classify_err_of_bare_err {l : Str} (hb : bareNumeric l = true)
    (h : isErr (bareHeaderOf l) = true) : isErr (classifyLine l) = true := by
  rw [classify_of_bare hb]
  cases hbh : bareHeaderOf l
  · simp [Except.map, isErr]
  · rw [hbh] at h; simp [isErr] at h

lemma pass1_append (xs ys : List Str) :
    pass1 (xs ++ ys)
      = (pass1 xs).bind (fun a => (pass1 ys).map (fun b => a ++ b)) := by
  induction xs with
  | nil =>
      cases h : pass1 ys <;>
        simp [pass1, h, Except.bind, Except.map, bind, pure, Except.pure]
  | cons l xs ih =>
      cases hc : classifyLine l <;>
        cases h1 : pass1 xs <;>
          simp [pass1, hc, h1, ih, Except.bind, Except.map, bind, pure, Except.pure] <;>
            cases h2 : pass1 ys <;>
              simp [Except.bind, Except.map, bind, pure, Except.pure, List.append_assoc]

lemma pass1_err_of_mem {l : Str} {ls : List Str} (hmem : l ∈ ls)
    (he : isErr (classifyLine l) = true) : isErr (pass1 ls) = true := by
  induction ls with
  | nil => cases hmem
  | cons x ls ih =>
      rcases List.mem_cons.mp hmem with h | h
      · subst h
        cases hc : classifyLine l
        · simp [pass1, hc, Except.bind, bind, isErr]
        · rw [hc] at he; simp [isErr] at he
      · cases hc : classifyLine x
        · simp [pass1, hc, isErr, Except.bind, bind]
        · have hh := ih h
          cases hp : pass1 ls
          · simp [pass1, hc, hp, isErr, Except.bind, bind]
          · rw [hp] at hh; simp [isErr] at hh

lemma pass1_ok_mem {ls : List Str} {es : List Element} (h : pass1 ls = .ok es)
    {l : Str} (hmem : l ∈ ls) : ∃ e, classifyLine l = .ok e := by
  induction ls generalizing es with
  | nil => cases hmem
  | cons x ls ih =>
      cases hc : classifyLine x with
      | error e => simp [pass1, hc, Except.bind, bind] at h
      | ok es1 =>
          cases hp : pass1 ls with
          | error e => simp [pass1, hc, hp, Except.bind, bind] at h
          | ok es2 =>
              rcases List.mem_cons.mp hmem with hm | hm
              · exact ⟨es1, hm ▸ hc⟩
              · exact ih hp hm

lemma pass1_secs {ls : List Str} (h : ∀ l ∈ ls, litSec.isPrefixOf l = true) :
    pass1 ls = .ok (ls.map (fun l => Element.secE (replaceFirst litSec [] l))) := by
  induction ls with
  | nil => rfl
  | cons x ls ih =>
      have hx := classify_of_sec (h x (by simp))
      have ihh := ih (fun l hl => h l (by simp [hl]))
      simp [pass1, hx, ihh, Except.bind, bind, pure, Except.pure]

lemma headersOf_append (a b : List Element) :
    headersOf (a ++ b) = headersOf a ++ headersOf b :=
  List.filterMap_append a b _

lemma pass2Fold_append (xs ys : List Element) (st : PSt) :
    pass2Fold (xs ++ ys) st = match pass2Fold xs st with
      | .ok st2 => pass2Fold ys st2
      | .error e => .error e := by
  induction xs generalizing st with
  | nil => simp [pass2Fold]
  | cons e xs ih =>
      cases hs : pass2Step st e <;> simp [pass2Fold, hs, ih]

lemma pushItemToLast_some : ∀ (ss : List SectionRec), ss ≠ [] → ∀ it,
    ∃ ss2, pushItemToLast ss it = some ss2 ∧ ss2.length = ss.length
  | [], h, _ => absurd rfl h
  | [s], _, it => ⟨[⟨s.title, s.items ++ [it]⟩], rfl, rfl⟩
  | s :: s2 :: ss, _, it => by
      obtain ⟨ss2, hps, hl⟩ := pushItemToLast_some (s2 :: ss) (by simp) it
      refine ⟨s :: ss2, ?_, by simp [hl]⟩
      simp [pushItemToLast, hps]

lemma pushItemToLast_some_ne {ss : List SectionRec} {it : ItemRec} {ss2 : List SectionRec}
    (h : pushItemToLast ss it = some ss2) : ss ≠ [] := by
  intro he
  subst he
  simp [pushItemToLast] at h

lemma pass2Fold_headers {es : List Element} : ∀ {st st2 : PSt},
    pass2Fold es st = .ok st2 →
    (flushOut st2).map VersionRec.header
      = (flushOut st).map VersionRec.header ++ headersOf es := by
  induction es with
  | nil =>
      intro st st2 h
      simp [pass2Fold] at h
      subst h
      simp [headersOf]
  | cons e es ih =>
      intro st st2 h
      cases e with
      | headerE hh =>
          have hstep : pass2Step st (.headerE hh)
              = .ok ⟨⟨hh, []⟩, true, if st.started then st.acc ++ [st.cv] else st.acc⟩ := rfl
          rw [pass2Fold, hstep] at h
          have hmap := ih h
          have hflush : (flushOut (⟨⟨hh, []⟩, true,
              if st.started then st.acc ++ [st.cv] else st.acc⟩ : PSt)).map VersionRec.header
              = (flushOut st).map VersionRec.header ++ [hh] := by
            cases hs : st.started <;> simp [flushOut, hs]
          rw [hmap, hflush]
          simp [headersOf]
      | secE t =>
          have hstep : pass2Step st (.secE t)
              = .ok ⟨⟨st.cv.header, st.cv.sections ++ [⟨t, []⟩]⟩, st.started, st.acc⟩ := rfl
          rw [pass2Fold, hstep] at h
          have hmap := ih h
          rw [hmap]
          cases hs : st.started <;> simp [flushOut, hs, headersOf]
      | itemE rs =>
          cases hp : pushItemToLast st.cv.sections ⟨rs⟩ with
          | none =>
              have hstep : pass2Step st (.itemE rs) = .error
                  (.typeError "Cannot read properties of undefined (reading items)") := by
                simp [pass2Step, hp]
              rw [pass2Fold, hstep] at h
              cases h
          | some ss =>
              have hstep : pass2Step st (.itemE rs)
                  = .ok ⟨⟨st.cv.header, ss⟩, st.started, st.acc⟩ := by
                simp [pass2Step, hp]
              rw [pass2Fold, hstep] at h
              have hmap := ih h
              rw [hmap]
              cases hs : st.started <;> simp [flushOut, hs, headersOf]

lemma pass2Fold_noSec_err {es1 : List Element} (h1 : ∀ e ∈ es1, isSecE e = false) :
    ∀ (st : PSt), st.cv.sections = [] → ∀ rs es2,
      isErr (pass2Fold (es1 ++ .itemE rs :: es2) st) = true := by
  induction es1 with
  | nil =>
      intro st hst rs es2
      have hstep : pass2Step st (.itemE rs) = .error
          (.typeError "Cannot read properties of undefined (reading items)") := by
        simp [pass2Step, hst, pushItemToLast]
      simp [pass2Fold, hstep, isErr]
  | cons e es1 ih =>
      intro st hst rs es2
      cases e with
      | headerE hh =>
          have hstep : pass2Step st (.headerE hh)
              = .ok ⟨⟨hh, []⟩, true, if st.started then st.acc ++ [st.cv] else st.acc⟩ := rfl
          rw [List.cons_append, pass2Fold, hstep]
          exact ih (fun e he => h1 e (by simp [he])) _ rfl rs es2
      | secE t => exact absurd (h1 (Element.secE t) (by simp)) (by simp [isSecE])
      | itemE rs0 =>
          have hstep : pass2Step st (.itemE rs0) = .error
              (.typeError "Cannot read properties of undefined (reading items)") := by
            simp [pass2Step, hst, pushItemToLast]
          rw [List.cons_append, pass2Fold, hstep]
          simp [isErr]

lemma pass2Fold_dummy {es : List Element} :
    ∀ (cv1 cv2 : VersionRec) (acc out : List VersionRec),
      cv1.sections.length ≤ cv2.sections.length →
      (pass2Fold es ⟨cv1, false, acc⟩).map flushOut = .ok out →
      (pass2Fold es ⟨cv2, false, acc⟩).map flushOut = .ok out := by
  induction es with
  | nil =>
      intro cv1 cv2 acc out hle h
      simp [pass2Fold, flushOut] at h ⊢
      exact h
  | cons e es ih =>
      intro cv1 cv2 acc out hle h
      cases e with
      | headerE hh =>
          have hs1 : pass2Step ⟨cv1, false, acc⟩ (.headerE hh) = .ok ⟨⟨hh, []⟩, true, acc⟩ := rfl
          have hs2 : pass2Step ⟨cv2, false, acc⟩ (.headerE hh) = .ok ⟨⟨hh, []⟩, true, acc⟩ := rfl
          rw [pass2Fold, hs1] at h
          rw [pass2Fold, hs2]
          exact h
      | secE t =>
          have hs1 : pass2Step ⟨cv1, false, acc⟩ (.secE t)
              = .ok ⟨⟨cv1.header, cv1.sections ++ [⟨t, []⟩]⟩, false, acc⟩ := rfl
          have hs2 : pass2Step ⟨cv2, false, acc⟩ (.secE t)
              = .ok ⟨⟨cv2.header, cv2.sections ++ [⟨t, []⟩]⟩, false, acc⟩ := rfl
          rw [pass2Fold, hs1] at h
          rw [pass2Fold, hs2]
          exact ih _ _ _ _ (by simp [hle]) h
      | itemE rs =>
          cases hp1 : pushItemToLast cv1.sections ⟨rs⟩ with
          | none =>
              have hs1 : pass2Step ⟨cv1, false, acc⟩ (.itemE rs) = .error
                  (.typeError "Cannot read properties of undefined (reading items)") := by
                simp [pass2Step, hp1]
              rw [pass2Fold, hs1] at h
              cases h
          | some ss1 =>
              have hne1 : cv1.sections ≠ [] := pushItemToLast_some_ne hp1
              have hne2 : cv2.sections ≠ [] := by
                intro hc
                have : cv1.sections.length = 0 := by
                  have := hle
                  rw [hc] at this
                  simpa using this
                exact hne1 (List.length_eq_zero.mp this)
              obtain ⟨ss2, hp2, hl2⟩ := pushItemToLast_some cv2.sections hne2 ⟨rs⟩
              obtain ⟨ss1b, hp1b, hl1⟩ := pushItemToLast_some cv1.sections hne1 ⟨rs⟩
              rw [hp1] at hp1b
              injection hp1b with hss
              subst hss
              have hs1 : pass2Step ⟨cv1, false, acc⟩ (.itemE rs)
                  = .ok ⟨⟨cv1.header, ss1⟩, false, acc⟩ := by
                simp [pass2Step, hp1]
              have hs2 : pass2Step ⟨cv2, false, acc⟩ (.itemE rs)
                  = .ok ⟨⟨cv2.header, ss2⟩, false, acc⟩ := by
                simp [pass2Step, hp2]
              rw [pass2Fold, hs1] at h
              rw [pass2Fold, hs2]
              exact ih _ _ _ _ (by simp [hl1, hl2, hle]) h

lemma isErr_map {α β : Type} {x : Except JsErr α} {f : α → β} :
    isErr (x.map f) = isErr x := by
  cases x <;> rfl

lemma parseLines_err_of_pass1 {ls : List Str} (hp : isErr (pass1 ls) = true) :
    isErr (parseLines ls) = true := by
  unfold parseLines
  cases h : pass1 ls
  · simp [Except.bind, bind, isErr]
  · rw [h] at hp; simp [isErr] at hp

lemma parseLines_err_of_pass2 {ls : List Str} {es : List Element}
    (hp : pass1 ls = .ok es) (he : isErr (pass2 es) = true) :
    isErr (parseLines ls) = true := by
  unfold parseLines
  rw [hp]
  simpa [Except.bind, bind] using he

lemma pass2Fold_secElems : ∀ (es : List Element), (∀ e ∈ es, isSecE e = true) →
    ∀ (cv : VersionRec) (acc : List VersionRec),
      ∃ cv2 : VersionRec, pass2Fold es ⟨cv, false, acc⟩ = .ok ⟨cv2, false, acc⟩ := by
  intro es
  induction es with
  | nil => exact fun _ cv acc => ⟨cv, rfl⟩
  | cons e es ih =>
      intro hall cv acc
      cases e with
      | headerE hh => exact absurd (hall (.headerE hh) (by simp)) (by simp [isSecE])
      | itemE rs => exact absurd (hall (.itemE rs) (by simp)) (by simp [isSecE])
      | secE t =>
          obtain ⟨cv2, h2⟩ := ih (fun e he => hall e (by simp [he]))
            ⟨cv.header, cv.sections ++ [⟨t, []⟩]⟩ acc
          refine ⟨cv2, ?_⟩
          have hstep : pass2Step ⟨cv, false, acc⟩ (.secE t)
              = .ok ⟨⟨cv.header, cv.sections ++ [⟨t, []⟩]⟩, false, acc⟩ := rfl
          rw [pass2Fold, hstep]
          exact h2

/-- C9: the header injector prepends exactly one `header` block with plain
text `Release Note - serviceName` and leaves the original block sequence
unchanged, in order, as the tail. -/
theorem c9_holds (blocks : List Block) (serviceName : Str) :
    addHeader blocks serviceName
      = Block.headerB ("Release Note - ".data ++ serviceName) :: blocks
    ∧ (addHeader blocks serviceName).head?
      = some (Block.headerB ("Release Note - ".data ++ serviceName))
    ∧ (addHeader blocks serviceName).tail = blocks
    ∧ (addHeader blocks serviceName).length = blocks.length + 1 :=
  ⟨rfl, rfl, rfl, by simp [addHeader]⟩

/-- C7 counterexample: a parse-reachable record whose `url` is present but
the empty string renders through the plain branch, not the `<url|version>`
link branch the claim requires for every present url. -/
theorem c7_counterexample :
    parseMarkdown "# [1.0]() (2024-01-01)"
      = .ok [⟨⟨"1.0".data, "2024-01-01".data, some []⟩, []⟩]
    ∧ versionToBlocks ⟨⟨"1.0".data, "2024-01-01".data, some []⟩, []⟩
      = [Block.sectionB "1.0 (2024-01-01)".data]
    ∧ "1.0 (2024-01-01)".data
      ≠ '<' :: (([] : Str) ++ '|' :: ("1.0".data
          ++ '>' :: ' ' :: '(' :: ("2024-01-01".data ++ [')']))) :=
  ⟨rfl, rfl, by decide⟩

/-- C7 (amended): the first rendered block is a `section` block whose text
is `<url|version> (date)` when the url is present AND non-empty, and
`version (date)` when the url is absent OR empty (JavaScript truthiness);
it is followed by exactly one `rich_text` block per section record, in
original order. -/
theorem c7_amended_holds (v : VersionRec) :
    (v.header.url = none ∨ v.header.url = some [] →
      versionToBlocks v
        = Block.sectionB (v.header.version ++ ' ' :: '(' :: (v.header.date ++ [')']))
            :: v.sections.map renderSection)
    ∧ (∀ u, v.header.url = some u → u ≠ [] →
      versionToBlocks v
        = Block.sectionB ('<' :: (u ++ '|' :: (v.header.version
              ++ '>' :: ' ' :: '(' :: (v.header.date ++ [')']))))
            :: v.sections.map renderSection)
    ∧ (∀ s : SectionRec, renderSection s
        = Block.richTextB
            [ RTPart.rtSection [RTE.rtext (some (s.title ++ ['\n'])) true],
              RTPart.rtList (s.items.map (fun it => it.sections.map runToRTE)) ]) := by
  refine ⟨?_, ?_, fun s => rfl⟩
  · rintro (h | h) <;> simp [versionToBlocks, truthy, h]
  · intro u hu hne
    have ht : truthy (some u) = true := by
      cases u with
      | nil => exact absurd rfl hne
      | cons a l => rfl
    simp [versionToBlocks, hu, ht]

/-- C7 (amended) witness at a url-less record. -/
theorem c7_amended_witness :
    versionToBlocks ⟨⟨"1.0".data, "2024-01-01".data, none⟩, []⟩
      = Block.sectionB ("1.0".data ++ ' ' :: '(' :: ("2024-01-01".data ++ [')']))
          :: ([] : List SectionRec).map renderSection :=
  (c7_amended_holds ⟨⟨"1.0".data, "2024-01-01".data, none⟩, []⟩).1 (Or.inl rfl)

/-- C2 counterexample: on the empty document (zero recognized header lines)
the pipeline does not report any empty-version-list condition before
rendering; it invokes the renderer on the undefined `versions[0]`, whose
`version.header` access raises the renderer's own `TypeError`. -/
theorem c2_counterexample :
    parseMarkdown "" = .ok []
    ∧ versionToBlocksJS (([] : List VersionRec))[0]?
        = .error (.typeError "Cannot read properties of undefined (reading header)")
    ∧ runCore "" "Service"
        = .error (.typeError "Cannot read properties of undefined (reading header)") :=
  ⟨rfl, rfl, rfl⟩

/-- C2 (amended): whenever parsing yields zero version records, `run`'s
core passes the undefined first element to the renderer and the pipeline
fails with the renderer's undefined-property `TypeError` (caught and
reported at the top level); no dedicated empty-version-list guard exists. -/
theorem c2_amended_holds (markdown serviceName : String)
    (h : parseMarkdown markdown = .ok []) :
    runCore markdown serviceName
      = .error (.typeError "Cannot read properties of undefined (reading header)") := by
  unfold runCore
  rw [h]
  rfl

/-- C2 (amended) witness on a document with a section line but no header. -/
theorem c2_amended_witness :
    runCore "### Features" "Service"
      = .error (.typeError "Cannot read properties of undefined (reading header)") :=
  c2_amended_holds "### Features" "Service" rfl

/-- C1 counterexample: a document whose only line is a `### ` section line
with no preceding header parses successfully (no MalformedDocument-style
error is raised) and the section is silently dropped from the output. -/
theorem c1_counterexample :
    parseMarkdown "### Features" = .ok []
    ∧ isErr (parseMarkdown "### Features") = false :=
  ⟨rfl, rfl⟩

/-- C1 (amended): a `### ` line with no preceding header attaches to the
internal dummy record that is never emitted, so it is silently dropped: a
block of leading section lines leaves the result of a successful parse
unchanged and raises no error. -/
theorem c1_amended_holds (pre rest : List Str) (vs : List VersionRec)
    (hpre : ∀ l ∈ pre, litSec.isPrefixOf l = true)
    (h : parseLines rest = .ok vs) :
    parseLines (pre ++ rest) = .ok vs := by
  unfold parseLines at h ⊢
  cases hp1 : pass1 rest with
  | error e => rw [hp1] at h; simp [Except.bind, bind] at h
  | ok es =>
      rw [hp1] at h
      simp only [Except.bind, bind] at h
      rw [pass1_append, pass1_secs hpre, hp1]
      simp only [Except.bind, bind, Except.map, pure, Except.pure]
      obtain ⟨cv2, hsecs⟩ := pass2Fold_secElems
        (pre.map (fun l => Element.secE (replaceFirst litSec [] l)))
        (by intro e he; simp at he; obtain ⟨l, _, hee⟩ := he; rw [← hee]; rfl)
        initSt.cv initSt.acc
      unfold pass2 at h ⊢
      rw [pass2Fold_append]
      have hinit : (⟨initSt.cv, false, initSt.acc⟩ : PSt) = initSt := rfl
      rw [hinit] at hsecs
      rw [hsecs]
      exact pass2Fold_dummy initSt.cv cv2 initSt.acc vs (Nat.zero_le _) h

/-- C1 (amended) witness: one orphan section line before a bracketed
header. -/
theorem c1_amended_witness :
    parseLines ["### Features".data, "# [1.0](u) (2024-01-01)".data]
      = .ok [⟨⟨"1.0".data, "2024-01-01".data, some "u".data⟩, []⟩] :=
  c1_amended_holds ["### Features".data] ["# [1.0](u) (2024-01-01)".data] _
    (by decide) rfl

/-- C8: a line matched by the loose bare-numeric pattern (digits, wildcard,
digits, wildcard, digits after `# ` - the separators need not be dots) is
classified as a bare numeric header; the version is the regex token between
`# ` and the next space, the date the first YYYY-MM-DD substring, and the
resulting record has no url. -/
theorem c8_holds (l : Str) (ver dt : Str)
    (h1 : bareNumeric l = true)
    (h2 : findLitLazy litHS ' ' l = some ver)
    (h3 : dateMatch l = some dt) :
    parseLines [l] = .ok [⟨⟨ver, dt, none⟩, []⟩] := by
  have hcl : classifyLine l = .ok [Element.headerE ⟨ver, dt, none⟩] := by
    rw [classify_of_bare h1]
    unfold bareHeaderOf
    rw [h2, h3]
    rfl
  unfold parseLines
  rw [pass1, hcl]
  simp only [pass1, Except.bind, bind, pure, Except.pure]
  rfl

/-- C8 witness: the claim's own example line `# 1a2b3 (2024-01-05)`, whose
version separators are not dots, is still parsed as a header. -/
theorem c8_witness :
    parseLines ["# 1a2b3 (2024-01-05)".data]
      = .ok [⟨⟨"1a2b3".data, "2024-01-05".data, none⟩, []⟩] :=
  c8_holds "# 1a2b3 (2024-01-05)".data "1a2b3".data "2024-01-05".data rfl rfl rfl

/-- C10: parse is not total: any document containing a `# [`/`## [` line
without a YYYY-MM-DD substring or without a lazily-matchable `(...)` group,
or a bare-numeric header line whose version regex `/# (.*?) /` finds no
terminating space, aborts with a runtime error from a property access on the
`null` regex match. -/
theorem c10_holds (pre post : List Str) (l : Str)
    (h : (isBracketLine l = true
            ∧ (dateMatch l = none ∨ findLitLazy ['('] ')' l = none))
       ∨ (bareNumeric l = true ∧ findLitLazy litHS ' ' l = none)) :
    isErr (parseLines (pre ++ l :: post)) = true := by
  have hcl : isErr (classifyLine l) = true := by
    rcases h with ⟨hb, hd⟩ | ⟨hb, hv⟩
    · exact classify_err_of_bracket_err hb (bracketHeaderOf_err hd)
    · exact classify_err_of_bare_err hb (bareHeaderOf_err hv)
  exact parseLines_err_of_pass1 (pass1_err_of_mem (by simp) hcl)

/-- C10 witness: the bracketed header line `# [1.0]` with no date. -/
theorem c10_witness : isErr (parseLines ["# [1.0]".data]) = true :=
  c10_holds [] [] "# [1.0]".data (Or.inl ⟨rfl, Or.inl rfl⟩)

lemma bool_eq_false {b : Bool} (h : ¬ b = true) : b = false := by
  cases b
  · rfl
  · exact absurd rfl h

lemma classify_header_shape {l : Str} {es : List Element}
    (hl : isHeaderLine l = true) (h : classifyLine l = .ok es) :
    ∃ hd, es = [Element.headerE hd] := by
  rcases Bool.or_eq_true_iff.mp hl with hb | hb
  · rw [classify_of_bracket hb] at h
    cases ho : bracketHeaderOf l <;> rw [ho] at h <;> simp [Except.map] at h
    obtain ⟨v, d, u, _, _, _, he⟩ := bracketHeaderOf_ok ho
    exact ⟨⟨v, d, some u⟩, by rw [← h, he]⟩
  · rw [classify_of_bare hb] at h
    cases ho : bareHeaderOf l <;> rw [ho] at h <;> simp [Except.map] at h
    obtain ⟨v, d, _, _, he⟩ := bareHeaderOf_ok ho
    exact ⟨⟨v, d, none⟩, by rw [← h, he]⟩

lemma classify_item_shape {l : Str} {es : List Element}
    (hl : litStar.isPrefixOf l = true) (h : classifyLine l = .ok es) :
    ∃ rs, es = [Element.itemE rs] := by
  rw [classify_of_star hl] at h
  cases ho : itemElemOf l <;> rw [ho] at h <;> simp [Except.map] at h
  obtain ⟨rs, _, he⟩ := itemElemOf_ok ho
  exact ⟨rs, by rw [← h, he]⟩

lemma classify_no_sec {l : Str} {es : List Element}
    (hl : litSec.isPrefixOf l = false) (h : classifyLine l = .ok es) :
    ∀ e ∈ es, isSecE e = false := by
  by_cases hb : isBracketLine l = true
  · obtain ⟨hd, he⟩ := classify_header_shape (by simp [isHeaderLine, hb]) h
    subst he
    simp [isSecE]
  · have hb' : isBracketLine l = false := by simpa using hb
    by_cases hn : bareNumeric l = true
    · obtain ⟨hd, he⟩ := classify_header_shape (by simp [isHeaderLine, hn]) h
      subst he
      simp [isSecE]
    · have hn' : bareNumeric l = false := by simpa using hn
      by_cases hst : litStar.isPrefixOf l = true
      · obtain ⟨rs, he⟩ := classify_item_shape hst h
        subst he
        simp [isSecE]
      · have hst' : litStar.isPrefixOf l = false := bool_eq_false hst
        rw [classify_of_other hb' hn' hl hst'] at h
        injection h with hh
        subst hh
        simp

lemma pass1_no_sec {ls : List Str} {es : List Element}
    (hp : pass1 ls = .ok es) (h : ∀ l ∈ ls, litSec.isPrefixOf l = false) :
    ∀ e ∈ es, isSecE e = false := by
  induction ls generalizing es with
  | nil =>
      simp [pass1] at hp
      subst hp
      simp
  | cons x ls ih =>
      cases hc : classifyLine x with
      | error e => simp [pass1, hc, Except.bind, bind] at hp
      | ok e1 =>
          cases hpl : pass1 ls with
          | error e => simp [pass1, hc, hpl, Except.bind, bind] at hp
          | ok es2 =>
              have hes : es = e1 ++ es2 := by
                have := hp
                simp [pass1, hc, hpl, Except.bind, bind, pure, Except.pure] at this
                exact this.symm
              subst hes
              intro e he
              rcases List.mem_append.mp he with hm | hm
              · exact classify_no_sec (h x (by simp)) hc e hm
              · exact ih hpl (fun l hl => h l (by simp [hl])) e hm

lemma pass2_err_header_item (ea ebs ec2 : List Element) (hd : HeaderRec) (rs : List Run)
    (hb : ∀ e ∈ ebs, isSecE e = false) :
    isErr (pass2 (ea ++ (Element.headerE hd :: (ebs ++ Element.itemE rs :: ec2)))) = true := by
  unfold pass2
  rw [pass2Fold_append]
  cases hfa : pass2Fold ea initSt with
  | error e => simp [Except.map, isErr]
  | ok st1 =>
      have hstep : pass2Step st1 (.headerE hd)
          = .ok ⟨⟨hd, []⟩, true, if st1.started then st1.acc ++ [st1.cv] else st1.acc⟩ := rfl
      show isErr ((pass2Fold (Element.headerE hd :: (ebs ++ Element.itemE rs :: ec2))
        st1).map flushOut) = true
      rw [pass2Fold, hstep, isErr_map]
      exact pass2Fold_noSec_err hb
        ⟨⟨hd, []⟩, true, if st1.started then st1.acc ++ [st1.cv] else st1.acc⟩ rfl rs ec2

/-- C6: an item line that follows a recognized header line with no
intervening `### ` section line makes the parse fail with a runtime error
(the push on the undefined last section) - the item is never silently
swallowed or dropped. -/
theorem c6_holds (a b c : List Str) (hline iline : Str)
    (hh : isHeaderLine hline = true)
    (hi : litStar.isPrefixOf iline = true)
    (hbsec : ∀ l ∈ b, litSec.isPrefixOf l = false) :
    isErr (parseLines (a ++ hline :: (b ++ iline :: c))) = true := by
  cases hcase : pass1 (a ++ hline :: (b ++ iline :: c)) with
  | error e => exact parseLines_err_of_pass1 (by rw [hcase]; rfl)
  | ok es =>
      have h0 := hcase
      rw [pass1_append] at h0
      cases hpa : pass1 a <;> rw [hpa] at h0
      · exact absurd h0 (by simp [Except.bind, bind])
      case ok ea =>
      cases hpr : pass1 (hline :: (b ++ iline :: c)) <;> rw [hpr] at h0
      · exact absurd h0 (by simp [Except.bind, Except.map, bind])
      case ok er =>
      have hes : ea ++ er = es := by
        simpa [Except.bind, Except.map, bind, pure, Except.pure] using h0
      have hpr2 := hpr
      rw [pass1] at hpr2
      cases hcl : classifyLine hline <;> rw [hcl] at hpr2
      · exact absurd hpr2 (by simp [Except.bind, bind])
      case ok e1 =>
      cases hprest : pass1 (b ++ iline :: c) <;> rw [hprest] at hpr2
      · exact absurd hpr2 (by simp [Except.bind, bind])
      case ok er2 =>
      have her : e1 ++ er2 = er := by
        simpa [Except.bind, bind, pure, Except.pure] using hpr2
      obtain ⟨hd, he1⟩ := classify_header_shape hh hcl
      have hprest2 := hprest
      rw [pass1_append] at hprest2
      cases hpb : pass1 b <;> rw [hpb] at hprest2
      · exact absurd hprest2 (by simp [Except.bind, Except.map, bind])
      case ok ebs =>
      cases hpi : pass1 (iline :: c) <;> rw [hpi] at hprest2
      · exact absurd hprest2 (by simp [Except.bind, Except.map, bind])
      case ok ei2 =>
      have her2 : ebs ++ ei2 = er2 := by
        simpa [Except.bind, Except.map, bind, pure, Except.pure] using hprest2
      have hpi2 := hpi
      rw [pass1] at hpi2
      cases hcli : classifyLine iline <;> rw [hcli] at hpi2
      · exact absurd hpi2 (by simp [Except.bind, bind])
      case ok e2 =>
      cases hpc : pass1 c <;> rw [hpc] at hpi2
      · exact absurd hpi2 (by simp [Except.bind, bind])
      case ok ec2 =>
      have hei2 : e2 ++ ec2 = ei2 := by
        simpa [Except.bind, bind, pure, Except.pure] using hpi2
      obtain ⟨rs, he2⟩ := classify_item_shape hi hcli
      have hsec : ∀ e ∈ ebs, isSecE e = false := pass1_no_sec hpb hbsec
      refine parseLines_err_of_pass2 hcase ?_
      have hfinal : es = ea ++ (Element.headerE hd :: (ebs ++ Element.itemE rs :: ec2)) := by
        rw [← hes, ← her, ← her2, ← hei2, he1, he2]
        simp
      rw [hfinal]
      exact pass2_err_header_item ea ebs ec2 hd rs hsec

/-- C6 witness: a bracketed header immediately followed by an item line. -/
theorem c6_witness :
    isErr (parseLines ["# [1.0](u) (2024-01-01)".data, "* x".data]) = true :=
  c6_holds [] [] [] "# [1.0](u) (2024-01-01)".data "* x".data rfl rfl (by decide)

lemma classify_headersOf {l : Str} {es : List Element} (h : classifyLine l = .ok es) :
    headersOf es = (headerOfLine l).toList
    ∧ (headerOfLine l).isSome = isHeaderLine l := by
  by_cases hb : isBracketLine l = true
  · rw [classify_of_bracket hb] at h
    cases ho : bracketHeaderOf l <;> rw [ho] at h <;> simp [Except.map] at h
    obtain ⟨v, d, u, h1, h2, h3, he⟩ := bracketHeaderOf_ok ho
    rw [← h, he]
    simp [headersOf, headerOfLine, hb, h1, h2, h3, isHeaderLine]
  · have hb' : isBracketLine l = false := by simpa using hb
    by_cases hn : bareNumeric l = true
    · rw [classify_of_bare hn] at h
      cases ho : bareHeaderOf l <;> rw [ho] at h <;> simp [Except.map] at h
      obtain ⟨v, d, h1, h2, he⟩ := bareHeaderOf_ok ho
      rw [← h, he]
      simp [headersOf, headerOfLine, hb', hn, h1, h2, isHeaderLine]
    · have hn' : bareNumeric l = false := by simpa using hn
      have hol : headerOfLine l = none := by simp [headerOfLine, hb', hn']
      have hisH : isHeaderLine l = false := by simp [isHeaderLine, hb', hn']
      refine ⟨?_, by simp [hol, hisH]⟩
      by_cases hs : litSec.isPrefixOf l = true
      · rw [classify_of_sec hs] at h
        injection h with hh
        subst hh
        simp [headersOf, hol]
      · by_cases hst : litStar.isPrefixOf l = true
        · obtain ⟨rs, he⟩ := classify_item_shape hst h
          subst he
          simp [headersOf, hol]
        · have hs' : litSec.isPrefixOf l = false := bool_eq_false hs
          have hst' : litStar.isPrefixOf l = false := bool_eq_false hst
          rw [classify_of_other hb' hn' hs' hst'] at h
          injection h with hh
          subst hh
          simp [headersOf, hol]

lemma pass1_headersOf {ls : List Str} {es : List Element} (h : pass1 ls = .ok es) :
    headersOf es = ls.filterMap headerOfLine := by
  induction ls generalizing es with
  | nil =>
      simp [pass1] at h
      subst h
      simp [headersOf]
  | cons l ls ih =>
      cases hcl : classifyLine l with
      | error e => simp [pass1, hcl, Except.bind, bind] at h
      | ok e1 =>
          cases hp : pass1 ls with
          | error e => simp [pass1, hcl, hp, Except.bind, bind] at h
          | ok es2 =>
              have hes : es = e1 ++ es2 := by
                have := h
                simp [pass1, hcl, hp, Except.bind, bind, pure, Except.pure] at this
                exact this.symm
              subst hes
              rw [headersOf_append, (classify_headersOf hcl).1, ih hp]
              cases hol : headerOfLine l <;> simp [List.filterMap_cons, hol]

/-- C5: whenever `parseMarkdown` succeeds, it returns exactly one
`VersionRecord` per recognized header line, in document order (the record
headers are precisely the per-line header extractions, in order, so no
sorting, reordering or deduplication by version string can occur). -/
theorem c5_holds (ls : List Str) (vs : List VersionRec)
    (h : parseLines ls = .ok vs) :
    vs.map VersionRec.header = ls.filterMap headerOfLine
    ∧ vs.length = ls.countP isHeaderLine := by
  unfold parseLines at h
  cases hp : pass1 ls <;> rw [hp] at h
  · simp [Except.bind, bind] at h
  case ok es =>
  simp only [Except.bind, bind] at h
  unfold pass2 at h
  cases hf : pass2Fold es initSt <;> rw [hf] at h
  · simp [Except.map] at h
  case ok st2 =>
  have hvs : flushOut st2 = vs := by simpa [Except.map] using h
  have hmap := pass2Fold_headers hf
  rw [hvs] at hmap
  have hinit : (flushOut initSt).map VersionRec.header = [] := rfl
  rw [hinit, List.nil_append] at hmap
  have hhd : headersOf es = ls.filterMap headerOfLine := pass1_headersOf hp
  refine ⟨by rw [hmap, hhd], ?_⟩
  have hlen : vs.length = (ls.filterMap headerOfLine).length := by
    calc vs.length = (vs.map VersionRec.header).length := by simp
      _ = (ls.filterMap headerOfLine).length := by rw [hmap, hhd]
  rw [hlen, length_filterMap_eq_countP]
  refine List.countP_congr ?_
  intro l hl
  obtain ⟨e, hce⟩ := pass1_ok_mem hp hl
  rw [(classify_headersOf hce).2]

lemma lazyCapture_spec {stop : Char} : ∀ {s cap rest : Str},
    lazyCapture stop s = some (cap, rest) → s = cap ++ stop :: rest ∧ noTerm cap := by
  intro s
  induction s with
  | nil => intro cap rest h; simp [lazyCapture] at h
  | cons c cs ih =>
      intro cap rest h
      by_cases hc : c = stop
      · rw [lazyCapture, if_pos hc] at h
        injection h with h2
        injection h2 with h3 h4
        subst h3
        subst h4
        exact ⟨by rw [hc]; rfl, by intro x hx; simp at hx⟩
      · by_cases ht : isTermChar c = true
        · rw [lazyCapture, if_neg hc, if_pos ht] at h
          cases h
        · have ht' : isTermChar c = false := bool_eq_false ht
          rw [lazyCapture, if_neg hc, if_neg (by simp [ht'])] at h
          cases hrec : lazyCapture stop cs with
          | none => rw [hrec] at h; cases h
          | some pr =>
              obtain ⟨cap', rest'⟩ := pr
              rw [hrec] at h
              injection h with h2
              injection h2 with h3 h4
              obtain ⟨hcs, hnt⟩ := ih hrec
              subst h3
              subst h4
              refine ⟨by rw [hcs]; rfl, ?_⟩
              intro x hx
              rcases List.mem_cons.mp hx with hx1 | hx2
              · rw [hx1]; exact ht'
              · exact hnt x hx2

lemma lazyCapture_isSome {stop : Char} : ∀ {s : Str}, noTerm s → stop ∈ s →
    (lazyCapture stop s).isSome = true := by
  intro s
  induction s with
  | nil => intro _ hm; cases hm
  | cons c cs ih =>
      intro hnt hm
      by_cases hc : c = stop
      · rw [lazyCapture, if_pos hc]; rfl
      · have ht : isTermChar c = false := hnt c (by simp)
        have hm2 : stop ∈ cs := by
          rcases List.mem_cons.mp hm with h1 | h2
          · exact absurd h1.symm hc
          · exact h2
        have := ih (fun x hx => hnt x (by simp [hx])) hm2
        rw [lazyCapture, if_neg hc, if_neg (by simp [ht])]
        cases hrec : lazyCapture stop cs with
        | none => rw [hrec] at this; cases this
        | some pr => obtain ⟨a, b⟩ := pr; rfl

lemma linkTextLoop_spec : ∀ {s : Str} {acc txt url rest : Str},
    linkTextLoop acc s = some (txt, url, rest) →
    ∃ ext, txt = acc.reverse ++ ext
      ∧ s = ext ++ (']' :: '(' :: (url ++ ')' :: rest))
      ∧ noTerm ext ∧ noTerm url := by
  intro s
  induction s with
  | nil => intro acc txt url rest h; simp [linkTextLoop] at h
  | cons c cs ih =>
      intro acc txt url rest h
      by_cases ht : isTermChar c = true
      · rw [linkTextLoop, if_pos ht] at h; cases h
      · have ht' : isTermChar c = false := bool_eq_false ht
        by_cases hc : c = ']'
        · subst hc
          rw [linkTextLoop, if_neg (by simp [ht']), if_pos rfl] at h
          by_cases hh : cs.head? = some '('
          · rw [if_pos hh] at h
            obtain ⟨cs2, hcs⟩ : ∃ cs2, cs = '(' :: cs2 := by
              cases cs with
              | nil => simp at hh
              | cons c2 cs2 =>
                  simp at hh
                  exact ⟨cs2, by rw [hh]⟩
            subst hcs
            simp only [List.tail_cons] at h
            cases hlc : lazyCapture ')' cs2 with
            | some pr =>
                obtain ⟨url', rest'⟩ := pr
                rw [hlc] at h
                simp only [Option.some.injEq, Prod.mk.injEq] at h
                obtain ⟨ha, hbu, hbr⟩ := h
                subst ha; subst hbu; subst hbr
                obtain ⟨hcs2, hnu⟩ := lazyCapture_spec hlc
                refine ⟨[], by simp, ?_, by intro x hx; simp at hx, hnu⟩
                rw [hcs2]
                rfl
            | none =>
                rw [hlc] at h
                obtain ⟨ext, h1, h2, h3, h4⟩ := ih h
                refine ⟨']' :: ext, ?_, ?_, ?_, h4⟩
                · rw [h1]; simp
                · rw [h2]; simp
                · intro x hx
                  rcases List.mem_cons.mp hx with hx1 | hx2
                  · rw [hx1]; rfl
                  · exact h3 x hx2
          · rw [if_neg hh] at h
            obtain ⟨ext, h1, h2, h3, h4⟩ := ih h
            refine ⟨']' :: ext, ?_, ?_, ?_, h4⟩
            · rw [h1]; simp
            · rw [h2]; simp
            · intro x hx
              rcases List.mem_cons.mp hx with hx1 | hx2
              · rw [hx1]; rfl
              · exact h3 x hx2
        · rw [linkTextLoop, if_neg (by simp [ht']), if_neg hc] at h
          obtain ⟨ext, h1, h2, h3, h4⟩ := ih h
          refine ⟨c :: ext, ?_, ?_, ?_, h4⟩
          · rw [h1]; simp
          · rw [h2]; simp
          · intro x hx
            rcases List.mem_cons.mp hx with hx1 | hx2
            · rw [hx1]; exact ht'
            · exact h3 x hx2

lemma linkAt_spec : ∀ {s full txt url rest : Str},
    linkAt s = some (full, txt, url, rest) →
    s = full ++ rest ∧ IsLinkStr full
      ∧ full = '[' :: (txt ++ ']' :: '(' :: (url ++ [')'])) := by
  intro s full txt url rest h
  cases s with
  | nil => simp [linkAt] at h
  | cons c cs =>
      by_cases hc : c = '['
      · subst hc
        rw [linkAt, if_pos rfl] at h
        cases hlt : linkTextLoop [] cs with
        | none => rw [hlt] at h; cases h
        | some pr =>
            obtain ⟨txt', url', rest'⟩ := pr
            rw [hlt] at h
            simp only [Option.some.injEq, Prod.mk.injEq] at h
            obtain ⟨hf, ht2, hu2, hr2⟩ := h
            subst ht2; subst hu2; subst hr2; subst hf
            obtain ⟨ext, h1, h2, h3, h4⟩ := linkTextLoop_spec hlt
            have hext : txt' = ext := by rw [h1]; simp
            subst hext
            refine ⟨?_, ⟨txt', url', rfl, h3, h4⟩, rfl⟩
            rw [h2]
            simp
      · rw [linkAt, if_neg hc] at h
        cases h

lemma linkAt_rest_lt {s full txt url rest : Str}
    (h : linkAt s = some (full, txt, url, rest)) : rest.length < s.length := by
  obtain ⟨hs, hshape, _⟩ := linkAt_spec h
  obtain ⟨t, u, hf, _, _⟩ := hshape
  rw [hs, hf]
  simp
  omega

lemma scanLinksF_decomp : ∀ (fuel : Nat) (s : Str), s.length ≤ fuel →
    Decomp (scanLinksF fuel s) s ∧ ∀ lk ∈ scanLinksF fuel s, IsLinkStr lk := by
  intro fuel
  induction fuel with
  | zero =>
      intro s hs
      have hnil : s = [] := List.eq_nil_of_length_eq_zero (Nat.le_zero.mp hs)
      subst hnil
      exact ⟨Decomp.nil [], by simp [scanLinksF]⟩
  | succ fuel ih =>
      intro s hs
      cases s with
      | nil => exact ⟨Decomp.nil [], by simp [scanLinksF]⟩
      | cons c cs =>
          cases hl : linkAt (c :: cs) with
          | none =>
              have hrec := ih cs (by simp at hs; omega)
              constructor
              · simp only [scanLinksF, hl]
                exact Decomp.skip c _ _ hrec.1
              · intro lk hm
                simp only [scanLinksF, hl] at hm
                exact hrec.2 lk hm
          | some q =>
              obtain ⟨full, q2⟩ := q
              obtain ⟨txt, q3⟩ := q2
              obtain ⟨url, rest⟩ := q3
              obtain ⟨hseq, hshape, _⟩ := linkAt_spec hl
              have hlt : rest.length < (c :: cs).length := linkAt_rest_lt hl
              have hrec := ih rest (by
                have hs2 : (c :: cs).length ≤ fuel + 1 := hs
                omega)
              constructor
              · simp only [scanLinksF, hl]
                rw [hseq]
                exact Decomp.cons full _ rest hrec.1
              · intro lk hm
                simp only [scanLinksF, hl, List.mem_cons] at hm
                rcases hm with hm1 | hm2
                · rw [hm1]; exact hshape
                · exact hrec.2 lk hm2

lemma scanLinks_decomp (s : Str) : Decomp (scanLinks s) s :=
  (scanLinksF_decomp s.length s le_rfl).1

lemma scanLinks_shapes {s lk : Str} (h : lk ∈ scanLinks s) : IsLinkStr lk :=
  (scanLinksF_decomp s.length s le_rfl).2 lk h

lemma countOccs_append_le (pat a b : Str) : countOccs pat b ≤ countOccs pat (a ++ b) := by
  induction a with
  | nil => exact le_rfl
  | cons c a2 ih =>
      rw [List.cons_append, countOccs]
      split <;> omega

lemma countOccs_factor (pat b : Str) (hne : pat ≠ []) :
    ∀ a, 1 ≤ countOccs pat (a ++ (pat ++ b)) := by
  intro a
  induction a with
  | nil =>
      rw [List.nil_append]
      obtain ⟨p, ps, hpat⟩ : ∃ p ps, pat = p :: ps := by
        cases pat with
        | nil => exact absurd rfl hne
        | cons p ps => exact ⟨p, ps, rfl⟩
      subst hpat
      rw [List.cons_append, countOccs]
      have := isPrefixOf_self_append (p :: ps) b
      rw [List.cons_append] at this
      rw [this]
      simp
  | cons c a2 ih =>
      rw [List.cons_append, countOccs]
      split <;> omega

lemma countOccs_self_head (p : Char) (ps b : Str) :
    countOccs (p :: ps) ((p :: ps) ++ b) = 1 + countOccs (p :: ps) (ps ++ b) := by
  rw [List.cons_append, countOccs]
  have := isPrefixOf_self_append (p :: ps) b
  rw [List.cons_append] at this
  rw [this]
  simp

lemma jsSplitF_no_occ {pat : Str} : ∀ (fuel : Nat) (s acc : Str),
    countOccs pat s = 0 → jsSplitF pat fuel acc s = [acc.reverse ++ s] := by
  intro fuel
  induction fuel with
  | zero =>
      intro s acc h
      cases s with
      | nil => simp [jsSplitF]
      | cons c cs => rfl
  | succ fuel ih =>
      intro s acc h
      cases s with
      | nil => simp [jsSplitF]
      | cons c cs =>
          rw [countOccs] at h
          have hp : pat.isPrefixOf (c :: cs) = false := by
            cases hpp : pat.isPrefixOf (c :: cs)
            · rfl
            · rw [hpp] at h; simp at h
          rw [jsSplitF, if_neg (by simp [hp])]
          rw [ih cs (c :: acc) (by rw [hp] at h; simpa using h)]
          simp

lemma jsSplitF_unique {pat : Str} (hne : pat ≠ []) : ∀ (a : Str) (fuel : Nat) (acc suf : Str),
    (a ++ (pat ++ suf)).length ≤ fuel →
    countOccs pat (a ++ (pat ++ suf)) = 1 →
    jsSplitF pat fuel acc (a ++ (pat ++ suf)) = [acc.reverse ++ a, suf] := by
  intro a
  induction a with
  | nil =>
      intro fuel acc suf hlen hcnt
      rw [List.nil_append] at hlen hcnt ⊢
      obtain ⟨p, ps, hpat⟩ : ∃ p ps, pat = p :: ps := by
        cases pat with
        | nil => exact absurd rfl hne
        | cons p ps => exact ⟨p, ps, rfl⟩
      subst hpat
      cases fuel with
      | zero =>
          exfalso
          have hpos : 0 < ((p :: ps) ++ suf).length := by simp
          omega
      | succ fuel =>
          have hgoal : (p :: ps) ++ suf = p :: (ps ++ suf) := rfl
          have hpre := isPrefixOf_self_append (p :: ps) suf
          rw [hgoal] at hpre
          have hdrop := List.drop_left (p :: ps) suf
          rw [hgoal] at hdrop
          rw [hgoal, jsSplitF, if_pos hpre, hdrop]
          have hsuf0 : countOccs (p :: ps) suf = 0 := by
            have h1 := countOccs_self_head p ps suf
            have h2 := countOccs_append_le (p :: ps) ps suf
            omega
          rw [jsSplitF_no_occ fuel suf [] hsuf0]
          simp
  | cons c a2 ih =>
      intro fuel acc suf hlen hcnt
      have hfac : 1 ≤ countOccs pat (a2 ++ (pat ++ suf)) := countOccs_factor pat suf hne a2
      rw [List.cons_append, countOccs] at hcnt
      have hnp : pat.isPrefixOf (c :: (a2 ++ (pat ++ suf))) = false := by
        cases hpp : pat.isPrefixOf (c :: (a2 ++ (pat ++ suf)))
        · rfl
        · rw [hpp] at hcnt; simp at hcnt; omega
      have hlen2 : ((c :: a2) ++ (pat ++ suf)).length
          = (a2 ++ (pat ++ suf)).length + 1 := by simp
      cases fuel with
      | zero =>
          exfalso
          omega
      | succ fuel =>
          rw [List.cons_append, jsSplitF, if_neg (by simp [hnp])]
          rw [hnp] at hcnt
          simp at hcnt
          rw [ih fuel (c :: acc) suf (by omega) hcnt]
          simp

lemma isEmpty_false_of_ne {pat : Str} (hne : pat ≠ []) : pat.isEmpty = false := by
  cases pat with
  | nil => exact absurd rfl hne
  | cons p ps => rfl

lemma jsSplit_unique {pat a suf : Str} (hne : pat ≠ [])
    (hcnt : countOccs pat (a ++ (pat ++ suf)) = 1) :
    jsSplit pat (a ++ (pat ++ suf)) = [a, suf] := by
  unfold jsSplit
  rw [isEmpty_false_of_ne hne]
  simp only [Bool.false_eq_true, if_false]
  have := jsSplitF_unique hne a (a ++ (pat ++ suf)).length [] suf le_rfl hcnt
  simpa using this

lemma decomp_cons_aux {L : List Str} {s : Str} (h : Decomp L s) :
    ∀ {lk : Str} {ls : List Str}, L = lk :: ls →
      ∃ a b, s = a ++ (lk ++ b) ∧ Decomp ls b := by
  induction h with
  | nil s =>
      intro lk ls hL
      exact absurd hL (by simp)
  | skip c ls2 s2 hd ih =>
      intro lk ls hL
      obtain ⟨a, b, hs, hd2⟩ := ih hL
      exact ⟨c :: a, b, by rw [hs]; rfl, hd2⟩
  | cons lk2 ls2 s2 hd ih =>
      intro lk ls hL
      injection hL with h1 h2
      subst h1; subst h2
      exact ⟨[], s2, by simp, hd⟩

lemma decomp_cons_split {s lk : Str} {ls : List Str} (h : Decomp (lk :: ls) s) :
    ∃ a b, s = a ++ (lk ++ b) ∧ Decomp ls b :=
  decomp_cons_aux h rfl

lemma decomp_factor {ls : List Str} {s : Str} (h : Decomp ls s) :
    ∀ lk ∈ ls, ∃ a b, s = a ++ (lk ++ b) := by
  induction h with
  | nil s => simp
  | skip c ls2 s2 hd ih =>
      intro lk hm
      obtain ⟨a, b, hs⟩ := ih lk hm
      exact ⟨c :: a, b, by rw [hs]; rfl⟩
  | cons lk2 ls2 s2 hd ih =>
      intro lk hm
      rcases List.mem_cons.mp hm with he | hm2
      · exact ⟨[], s2, by rw [he]; simp⟩
      · obtain ⟨a, b, hs⟩ := ih lk hm2
        exact ⟨lk2 ++ a, b, by rw [hs]; simp⟩

lemma findLit_paren_isSome : ∀ (a b : Str), noTerm b → ')' ∈ b →
    (findLitLazy ['('] ')' (a ++ '(' :: b)).isSome = true := by
  intro a
  induction a with
  | nil =>
      intro b hnt hm
      rw [List.nil_append]
      have hpre : (['('] : Str).isPrefixOf ('(' :: b) = true := by simp [List.isPrefixOf]
      rw [findLitLazy, if_pos hpre]
      have hs := lazyCapture_isSome hnt hm
      have hdrop : ('(' :: b).drop (['('] : Str).length = b := rfl
      rw [hdrop]
      cases hlc : lazyCapture ')' b with
      | none => rw [hlc] at hs; cases hs
      | some pr => obtain ⟨x, y⟩ := pr; rfl
  | cons c a2 ih =>
      intro b hnt hm
      rw [List.cons_append]
      by_cases hc : c = '('
      · subst hc
        have hpre : (['('] : Str).isPrefixOf ('(' :: (a2 ++ '(' :: b)) = true := by
          simp [List.isPrefixOf]
        rw [findLitLazy, if_pos hpre]
        cases hlc : lazyCapture ')' (('(' :: (a2 ++ '(' :: b)).drop (['('] : Str).length) with
        | some pr => obtain ⟨x, y⟩ := pr; rfl
        | none => exact ih b hnt hm
      · have hpre : (['('] : Str).isPrefixOf (c :: (a2 ++ '(' :: b)) = false := by
          cases hb : ('(' == c)
          · simp [List.isPrefixOf, hb]
          · exact absurd (eq_of_beq hb).symm hc
        rw [findLitLazy, if_neg (by simp [hpre])]
        exact ih b hnt hm

lemma isLinkStr_ne {lk : Str} (h : IsLinkStr lk) : lk ≠ [] := by
  obtain ⟨t, u, hf, _, _⟩ := h
  rw [hf]
  simp

lemma isLink_url_isSome {lk : Str} (h : IsLinkStr lk) :
    (findLitLazy ['('] ')' lk).isSome = true := by
  obtain ⟨t, u, hf, hnt, hnu⟩ := h
  have hb : noTerm (u ++ [')']) := by
    intro x hx
    rcases List.mem_append.mp hx with h1 | h2
    · exact hnu x h1
    · simp at h2; rw [h2]; rfl
  have hm : ')' ∈ u ++ [')'] := by simp
  have hres := findLit_paren_isSome ('[' :: (t ++ [']'])) (u ++ [')']) hb hm
  have heq : ('[' :: (t ++ [']'])) ++ '(' :: (u ++ [')']) = lk := by
    rw [hf]; simp
  rw [heq] at hres
  exact hres

lemma isLink_txt_isSome {lk : Str} (h : IsLinkStr lk) :
    (findLitLazy ['['] ']' lk).isSome = true := by
  obtain ⟨t, u, hf, hnt, hnu⟩ := h
  subst hf
  have hpre : (['['] : Str).isPrefixOf ('[' :: (t ++ ']' :: '(' :: (u ++ [')']))) = true := by
    simp [List.isPrefixOf]
  rw [findLitLazy, if_pos hpre]
  have hnoterm : noTerm (t ++ ']' :: '(' :: (u ++ [')'])) := by
    intro x hx
    rcases List.mem_append.mp hx with h1 | h2
    · exact hnt x h1
    · rcases List.mem_cons.mp h2 with h3 | h4
      · rw [h3]; rfl
      · rcases List.mem_cons.mp h4 with h5 | h6
        · rw [h5]; rfl
        · rcases List.mem_append.mp h6 with h7 | h8
          · exact hnu x h7
          · simp at h8; rw [h8]; rfl
  have hmem : ']' ∈ t ++ ']' :: '(' :: (u ++ [')']) := by simp
  have hs := lazyCapture_isSome hnoterm hmem
  have hdrop : ('[' :: (t ++ ']' :: '(' :: (u ++ [')']))).drop (['['] : Str).length
      = t ++ ']' :: '(' :: (u ++ [')']) := rfl
  rw [hdrop]
  cases hlc : lazyCapture ']' (t ++ ']' :: '(' :: (u ++ [')'])) with
  | none => rw [hlc] at hs; cases hs
  | some pr => obtain ⟨x, y⟩ := pr; rfl

lemma itemLoopGo_roundtrip : ∀ (links : List Str) (item : Str) (acc : List Run),
    Decomp links item →
    (∀ lk ∈ links, countOccs lk item = 1) →
    (∀ lk ∈ links, IsLinkStr lk) →
    ∃ runs, itemLoopGo links (some item) acc = .ok (acc ++ runs)
      ∧ concatRaw runs = some item := by
  intro links
  induction links with
  | nil =>
      intro item acc _ _ _
      refine ⟨[Run.textR (some item)], rfl, ?_⟩
      simp [concatRaw, runRaw, pure]
  | cons lk rest ih =>
      intro item acc hdec hcnt hshape
      obtain ⟨pre, suf, hitem, hdrest⟩ := decomp_cons_split hdec
      have hlkshape := hshape lk (by simp)
      have hne : lk ≠ [] := isLinkStr_ne hlkshape
      obtain ⟨url, hurl⟩ := Option.isSome_iff_exists.mp (isLink_url_isSome hlkshape)
      obtain ⟨txt, htxt⟩ := Option.isSome_iff_exists.mp (isLink_txt_isSome hlkshape)
      have hcnt1 : countOccs lk (pre ++ (lk ++ suf)) = 1 := by
        have := hcnt lk (by simp)
        rw [hitem] at this
        exact this
      have hsplit : jsSplit lk item = [pre, suf] := by
        rw [hitem]
        exact jsSplit_unique hne hcnt1
      have hcnt2 : ∀ l2 ∈ rest, countOccs l2 suf = 1 := by
        intro l2 hm
        have hle : countOccs l2 suf ≤ countOccs l2 item := by
          rw [hitem]
          have hassoc : pre ++ (lk ++ suf) = (pre ++ lk) ++ suf := by simp
          rw [hassoc]
          exact countOccs_append_le l2 (pre ++ lk) suf
        have hge : 1 ≤ countOccs l2 suf := by
          obtain ⟨x, y, hxy⟩ := decomp_factor hdrest l2 hm
          rw [hxy]
          exact countOccs_factor l2 y (isLinkStr_ne (hshape l2 (by simp [hm]))) x
        have heq := hcnt l2 (by simp [hm])
        omega
      obtain ⟨runs', hloop, hconcat⟩ :=
        ih suf (acc ++ [Run.textR (some pre), Run.linkR lk url txt]) hdrest hcnt2
          (fun l2 hm => hshape l2 (by simp [hm]))
      refine ⟨Run.textR (some pre) :: Run.linkR lk url txt :: runs', ?_, ?_⟩
      · simp only [itemLoopGo, hurl, htxt, expectSome, Except.bind, bind, hsplit]
        have h19 : ([pre, suf] : List Str)[1]? = some suf := rfl
        have h20 : ([pre, suf] : List Str).headD [] = pre := rfl
        rw [h19, h20, hloop]
        simp
      · simp only [concatRaw, runRaw, hconcat, bind, Option.bind, pure]
        rw [hitem]

lemma itemRuns_roundtrip {item : Str}
    (huniq : ∀ lk ∈ scanLinks item, countOccs lk item = 1) :
    ∃ runs, itemRuns item = .ok runs ∧ concatRaw runs = some item := by
  obtain ⟨runs, hloop, hc⟩ := itemLoopGo_roundtrip (scanLinks item) item []
    (scanLinks_decomp item) huniq (fun lk hm => scanLinks_shapes hm)
  refine ⟨runs, ?_, hc⟩
  unfold itemRuns
  rw [hloop]
  simp

/-- C3 counterexample: on the list-item line `* [a](b) x [a](b) y`, whose
normalized text contains the same link markup twice, the split-based run
extraction loses the trailing ` y` and ends with an undefined text run, so
the runs do not account for every character of the normalized line. -/
theorem c3_counterexample :
    itemRuns (normalizeItem "* [a](b) x [a](b) y".data)
      = .ok [Run.textR (some []),
             Run.linkR "[a](b)".data "b".data "a".data,
             Run.textR (some " x ".data),
             Run.linkR "[a](b)".data "b".data "a".data,
             Run.textR none]
    ∧ concatRaw [Run.textR (some []),
             Run.linkR "[a](b)".data "b".data "a".data,
             Run.textR (some " x ".data),
             Run.linkR "[a](b)".data "b".data "a".data,
             Run.textR none] ≠ some (normalizeItem "* [a](b) x [a](b) y".data) :=
  ⟨rfl, by decide⟩

/-- C3 (amended): for a list-item line, provided each link markup matched by
the global scan occurs exactly once as a substring of the normalized line
(which the duplicate-link counterexample violates), the produced runs
account for every character of the normalized line exactly once:
concatenating text-run texts and link-run raw markups in order reconstructs
the normalized (bold-stripped, bullet-stripped, HTML-escaped) line. -/
theorem c3_amended_holds (line : Str) (hstar : litStar.isPrefixOf line = true)
    (huniq : ∀ lk ∈ scanLinks (normalizeItem line),
      countOccs lk (normalizeItem line) = 1) :
    ∃ runs, itemRuns (normalizeItem line) = .ok runs
      ∧ concatRaw runs = some (normalizeItem line) :=
  itemRuns_roundtrip huniq

/-- C3 (amended) witness on a single-link item line. -/
theorem c3_amended_witness :
    ∃ runs, itemRuns (normalizeItem "* a [b](u) c".data) = .ok runs
      ∧ concatRaw runs = some (normalizeItem "* a [b](u) c".data) :=
  c3_amended_holds "* a [b](u) c".data rfl (by decide)

/-- C4: the specific three-line document parses to exactly one version
record with version 1.2.0, date 2024-01-05, url http://x/1.2.0, one section
titled Features, one item whose runs are the text `Add foo support (`, the
link `#12 -> http://x/12`, and the text `)`. -/
theorem c4_holds :
    parseMarkdown "# [1.2.0](http://x/1.2.0) (2024-01-05)\n### Features\n* Add **foo** support ([#12](http://x/12))"
      = .ok [⟨⟨"1.2.0".data, "2024-01-05".data, some "http://x/1.2.0".data⟩,
          [⟨"Features".data,
            [⟨[Run.textR (some "Add foo support (".data),
               Run.linkR "[#12](http://x/12)".data "http://x/12".data "#12".data,
               Run.textR (some ")".data)]⟩]⟩]⟩] := rfl

/-- C5 witness: two identical bracketed header lines yield two records in
order (no deduplication). -/
theorem c5_witness :
    ([⟨⟨"1.0".data, "2024-01-01".data, some "u".data⟩, []⟩,
      ⟨⟨"1.0".data, "2024-01-01".data, some "u".data⟩, []⟩] : List VersionRec).map
        VersionRec.header
      = ["# [1.0](u) (2024-01-01)".data, "# [1.0](u) (2024-01-01)".data].filterMap
          headerOfLine
    ∧ ([⟨⟨"1.0".data, "2024-01-01".data, some "u".data⟩, []⟩,
        ⟨⟨"1.0".data, "2024-01-01".data, some "u".data⟩, []⟩] : List VersionRec).length
      = ["# [1.0](u) (2024-01-01)".data, "# [1.0](u) (2024-01-01)".data].countP
          isHeaderLine :=
  c5_holds _ _ rfl

end SlackNotify
